import Mathlib

/-!
# Verification of the `compyl` lexer (`src/lexer.rs`)

A shallow embedding of the tokenizer in `src/lexer.rs`.  Bytes are modelled
as `Nat` (the scanner operates on `Vec<u8>`; all classification is on byte
values).  Captured lexeme strings (`String::from_utf8_lossy` of a byte
slice) are modelled as the byte slice itself, a `List Nat`; every input in
the claims is ASCII, where `from_utf8_lossy` is the identity embedding.

The scanner state mirrors `struct Lexer` field by field.  The four internal
`while` loops of `next_token`'s helpers are embedded with an explicit
structural fuel; the wrapper passes a fuel that provably suffices (each
iteration increments `read_position` and an iteration only happens while
the inspected index is inside the buffer); the step/stop lemmas
(`ident_loop_step`, `ident_loop_none`, ...) show each wrapper makes exactly
the source loop's iterations.
-/

set_option autoImplicit false

namespace Compyl

/-- `u8::is_ascii_whitespace` — space, horizontal tab, line feed, form feed,
carriage return. -/
def isAsciiWhitespace (c : Nat) : Bool :=
  c = 32 || c = 9 || c = 10 || c = 12 || c = 13

/-- `u8::is_ascii_alphabetic`. -/
def isAsciiAlphabetic (c : Nat) : Bool :=
  (65 ≤ c && c ≤ 90) || (97 ≤ c && c ≤ 122)

/-- `u8::is_ascii_digit`. -/
def isAsciiDigit (c : Nat) : Bool :=
  48 ≤ c && c ≤ 57

/-- The identifier-body test of `read_identifier`:
`ch.is_ascii_alphabetic() || ch == b'_'`. -/
def isIdentChar (c : Nat) : Bool :=
  isAsciiAlphabetic c || c = 95

/-- `enum Token` from `src/lexer.rs`.  String payloads are byte lists. -/
inductive Token where
  | KwLet | KwFn | KwVoid | KwTrue | KwFalse
  | KwIf | KwElse | KwWhile | KwReturn | KwBreak
  | NumLiteral (s : List Nat)
  | StrLiteral (s : List Nat)
  | OpPlus | OpMinus | OpMult | OpDiv | OpMod
  | OpAnd | OpOr | OpNot
  | OpGt | OpGe | OpEq | OpNe | OpLt | OpLe
  | SemiColon | Colon | Comma | Assignment
  | Lparen | RParen | LSquirly | RSquirly | LBracket | RBracket
  | Identifier (s : List Nat)
  | Comment (s : List Nat)
  | TokEof
  deriving DecidableEq, Repr

/-- `struct Lexer` from `src/lexer.rs`: cursor, lookahead index, current
character, input buffer. -/
structure Lexer where
  position : Nat
  read_position : Nat
  ch : Option Nat
  input : List Nat
  deriving DecidableEq, Repr

/-- Bounds-checked read of one byte, as both `read_char` and `peek` perform
it: `None` when `read_position >= input.len()`, otherwise
`Some(input[read_position])`. -/
def bGet (input : List Nat) (i : Nat) : Option Nat :=
  if input.length ≤ i then none else input.get? i

/-- `Lexer::read_char`. -/
def Lexer.read_char (l : Lexer) : Lexer :=
  { l with
    ch := bGet l.input l.read_position
    position := l.read_position
    read_position := l.read_position + 1 }

/-- `Lexer::new`: zero-initialise, then prime with one `read_char`. -/
def Lexer.new (input : List Nat) : Lexer :=
  Lexer.read_char { position := 0, read_position := 0, ch := none, input := input }

/-- `Lexer::peek`. -/
def Lexer.peek (l : Lexer) : Option Nat :=
  bGet l.input l.read_position

/-- The `skip_whitespace` loop, with structural fuel:
`while ch is ascii whitespace, read_char`. -/
def skipWsF : Nat → Lexer → Lexer
  | 0, l => l
  | fuel + 1, l =>
    match l.ch with
    | some c => if isAsciiWhitespace c then skipWsF fuel l.read_char else l
    | none => l

/-- `Lexer::skip_whitespace`.  Fuel bound: an iteration replaces `position`
by `read_position = position + 1` on every scanner reachable from `new`, and
the loop stops as soon as `ch` is `none`, which happens once `position`
passes the buffer end; `input.length + 1 - position` iterations always
suffice. -/
def Lexer.skip_whitespace (l : Lexer) : Lexer :=
  skipWsF (l.input.length + 1 - l.position) l

/-- The `read_identifier` loop, with structural fuel:
`while peek is alphabetic or underscore, read_char`. -/
def identEndF : Nat → Lexer → Lexer
  | 0, l => l
  | fuel + 1, l =>
    match l.peek with
    | some c => if isIdentChar c then identEndF fuel l.read_char else l
    | none => l

/-- The identifier loop.  Fuel bound: an iteration requires
`peek = some _`, hence `read_position < input.length`, and increments
`read_position`; `input.length - read_position` iterations always
suffice. -/
def Lexer.ident_loop (l : Lexer) : Lexer :=
  identEndF (l.input.length - l.read_position) l

/-- The two digit-run loops of `read_num`, with structural fuel:
`while peek is an ascii digit, read_char`. -/
def digitsEndF : Nat → Lexer → Lexer
  | 0, l => l
  | fuel + 1, l =>
    match l.peek with
    | some c => if isAsciiDigit c then digitsEndF fuel l.read_char else l
    | none => l

/-- The digit-run loop; same fuel bound as `Lexer.ident_loop`. -/
def Lexer.digits_loop (l : Lexer) : Lexer :=
  digitsEndF (l.input.length - l.read_position) l

/-- The `read_comment` loop, with structural fuel:
`while peek is not a newline, read_char`. -/
def commentEndF : Nat → Lexer → Lexer
  | 0, l => l
  | fuel + 1, l =>
    match l.peek with
    | some c => if c ≠ 10 then commentEndF fuel l.read_char else l
    | none => l

/-- The comment loop; same fuel bound as `Lexer.ident_loop`. -/
def Lexer.comment_loop (l : Lexer) : Lexer :=
  commentEndF (l.input.length - l.read_position) l

/-- The inclusive slice `&input[a..=b]` taken by the three capture
helpers. -/
def sliceIncl (input : List Nat) (a b : Nat) : List Nat :=
  (input.drop a).take (b + 1 - a)

/-- `Lexer::read_identifier`: run the loop from `start_pos = position`,
return the new state and `input[start_pos..=position]`. -/
def Lexer.read_identifier (l : Lexer) : Lexer × List Nat :=
  let l2 := l.ident_loop
  (l2, sliceIncl l.input l.position l2.position)

/-- `Lexer::read_num`: integer digit run, then optionally a `.` (byte 46)
followed by a fractional digit run; returns `input[start_pos..=position]`. -/
def Lexer.read_num (l : Lexer) : Lexer × List Nat :=
  let l1 := l.digits_loop
  let l2 :=
    match l1.peek with
    | some c => if c = 46 then (l1.read_char).digits_loop else l1
    | none => l1
  (l2, sliceIncl l.input l.position l2.position)

/-- `Lexer::read_comment`: run to just before the next newline (byte 10) or
to end of input; returns `input[start_pos..=position]`. -/
def Lexer.read_comment (l : Lexer) : Lexer × List Nat :=
  let l2 := l.comment_loop
  (l2, sliceIncl l.input l.position l2.position)

/-- The keyword `match` inside `next_token` (lexer.rs lines 136–148),
on byte lists: "let" = [108,101,116], "fn" = [102,110],
"void" = [118,111,105,100], "true" = [116,114,117,101],
"false" = [102,97,108,115,101], "if" = [105,102], "else" = [101,108,115,101],
"while" = [119,104,105,108,101], "return" = [114,101,116,117,114,110],
"break" = [98,114,101,97,107]. -/
def lookupIdent (s : List Nat) : Token :=
  if s = [108, 101, 116] then .KwLet
  else if s = [102, 110] then .KwFn
  else if s = [118, 111, 105, 100] then .KwVoid
  else if s = [116, 114, 117, 101] then .KwTrue
  else if s = [102, 97, 108, 115, 101] then .KwFalse
  else if s = [105, 102] then .KwIf
  else if s = [101, 108, 115, 101] then .KwElse
  else if s = [119, 104, 105, 108, 101] then .KwWhile
  else if s = [114, 101, 116, 117, 114, 110] then .KwReturn
  else if s = [98, 114, 101, 97, 107] then .KwBreak
  else .Identifier s

/-- `Lexer::next_token`.  Byte codes: `+`=43 `-`=45 `*`=42 `/`=47 `%`=37
`&`=38 `|`=124 `>`=62 `=`=61 `!`=33 `<`=60 `;`=59 `:`=58 `,`=44 `(`=40
`)`=41 `[`=91 `]`=93 `?`=63, left/right curly = 123/125.  The Rust
`self.ch.and_then(closure)` arms for `> = ! <` are
`self.peek().map(...)`, so a `none` peek makes the whole arm `none`.
The final unconditional `read_char` is applied to the state left by the
classification. -/
def Lexer.next_token (l0 : Lexer) : Option Token × Lexer :=
  let l := l0.skip_whitespace
  let r : Option Token × Lexer :=
    match l.ch with
    | none => (none, l)
    | some c =>
      if c = 43 then (some .OpPlus, l)
      else if c = 45 then (some .OpMinus, l)
      else if c = 42 then (some .OpMult, l)
      else if c = 47 then (some .OpDiv, l)
      else if c = 37 then (some .OpMod, l)
      else if c = 38 then (some .OpAnd, l)
      else if c = 124 then (some .OpOr, l)
      else if c = 62 then
        match l.peek with
        | some nc => if nc = 61 then (some .OpGe, l.read_char) else (some .OpGt, l)
        | none => (none, l)
      else if c = 61 then
        match l.peek with
        | some nc => if nc = 61 then (some .OpEq, l.read_char) else (some .Assignment, l)
        | none => (none, l)
      else if c = 33 then
        match l.peek with
        | some nc => if nc = 61 then (some .OpNe, l.read_char) else (some .OpNot, l)
        | none => (none, l)
      else if c = 60 then
        match l.peek with
        | some nc => if nc = 61 then (some .OpLe, l.read_char) else (some .OpLt, l)
        | none => (none, l)
      else if c = 59 then (some .SemiColon, l)
      else if c = 58 then (some .Colon, l)
      else if c = 44 then (some .Comma, l)
      else if c = 40 then (some .Lparen, l)
      else if c = 41 then (some .RParen, l)
      else if c = 123 then (some .LSquirly, l)
      else if c = 125 then (some .RSquirly, l)
      else if c = 91 then (some .LBracket, l)
      else if c = 93 then (some .RBracket, l)
      else if c = 63 then
        let p := l.read_comment
        (some (.Comment p.2), p.1)
      else if isIdentChar c then
        -- the `b'a'..=b'z' | b'A'..=b'Z' | b'_'` range pattern
        let p := l.read_identifier
        (some (lookupIdent p.2), p.1)
      else if isAsciiDigit c then
        let p := l.read_num
        (some (.NumLiteral p.2), p.1)
      else (none, l)
  (r.1, r.2.read_char)

/-- `n` successive `next_token` calls, listing each call's result. -/
def Lexer.nextN : Lexer → Nat → List (Option Token)
  | _, 0 => []
  | l, n + 1 => (l.next_token).1 :: (l.next_token).2.nextN n

/-- The caller loop of `src/main.rs`: pull tokens until the first `none`
(with fuel, which bounds the number of tokens collected). -/
def Lexer.collect : Lexer → Nat → List Token
  | _, 0 => []
  | l, n + 1 =>
    match l.next_token with
    | (some t, l2) => t :: l2.collect n
    | (none, _) => []

/-- Modelled from the spec: the lexeme text of each token variant, per the
token table of spec §3 (the code keeps no lexeme for unit variants; this
map is needed to state the round-trip property).  `TokEof` is the reserved
terminal marker with no lexeme; `StrLiteral` is reserved and never
produced, its payload is its text. -/
def Token.text : Token → List Nat
  | .KwLet => [108, 101, 116]
  | .KwFn => [102, 110]
  | .KwVoid => [118, 111, 105, 100]
  | .KwTrue => [116, 114, 117, 101]
  | .KwFalse => [102, 97, 108, 115, 101]
  | .KwIf => [105, 102]
  | .KwElse => [101, 108, 115, 101]
  | .KwWhile => [119, 104, 105, 108, 101]
  | .KwReturn => [114, 101, 116, 117, 114, 110]
  | .KwBreak => [98, 114, 101, 97, 107]
  | .NumLiteral s => s
  | .StrLiteral s => s
  | .OpPlus => [43]
  | .OpMinus => [45]
  | .OpMult => [42]
  | .OpDiv => [47]
  | .OpMod => [37]
  | .OpAnd => [38]
  | .OpOr => [124]
  | .OpNot => [33]
  | .OpGt => [62]
  | .OpGe => [62, 61]
  | .OpEq => [61, 61]
  | .OpNe => [33, 61]
  | .OpLt => [60]
  | .OpLe => [60, 61]
  | .SemiColon => [59]
  | .Colon => [58]
  | .Comma => [44]
  | .Assignment => [61]
  | .Lparen => [40]
  | .RParen => [41]
  | .LSquirly => [123]
  | .RSquirly => [125]
  | .LBracket => [91]
  | .RBracket => [93]
  | .Identifier s => s
  | .Comment s => s
  | .TokEof => []

/-- The bytes the classification of `next_token` recognises: the twenty
operator/delimiter bytes, the comment marker `?`, identifier heads and
digits.  Whitespace bytes and every other byte are outside this set. -/
def recognizedByte (c : Nat) : Bool :=
  c = 43 || c = 45 || c = 42 || c = 47 || c = 37 || c = 38 || c = 124 ||
  c = 62 || c = 61 || c = 33 || c = 60 ||
  c = 59 || c = 58 || c = 44 || c = 40 || c = 41 ||
  c = 123 || c = 125 || c = 91 || c = 93 ||
  c = 63 || isIdentChar c || isAsciiDigit c

/-- The scanner whose cursor sits at index `p` of buffer `bs`, with the
cursor invariant in force: lookahead = cursor + 1 and the current
character re-read from the buffer.  `Lexer.new bs = stateAt bs 0`, and
every state reachable through `next_token` has this shape. -/
def stateAt (bs : List Nat) (p : Nat) : Lexer :=
  { position := p, read_position := p + 1, ch := bGet bs p, input := bs }

/-! ## Basic state lemmas -/

theorem bGet_eq_getElem? (bs : List Nat) (i : Nat) : bGet bs i = bs[i]? := by
  unfold bGet
  split
  · exact (List.getElem?_eq_none (by omega)).symm
  · exact List.get?_eq_getElem? bs i

@[simp] theorem stateAt_position (bs : List Nat) (p : Nat) : (stateAt bs p).position = p := rfl

@[simp] theorem stateAt_read_position (bs : List Nat) (p : Nat) :
    (stateAt bs p).read_position = p + 1 := rfl

@[simp] theorem stateAt_input (bs : List Nat) (p : Nat) : (stateAt bs p).input = bs := rfl

@[simp] theorem stateAt_ch (bs : List Nat) (p : Nat) : (stateAt bs p).ch = bs[p]? :=
  bGet_eq_getElem? bs p

theorem read_char_stateAt (bs : List Nat) (p : Nat) :
    (stateAt bs p).read_char = stateAt bs (p + 1) := rfl

theorem new_eq_stateAt (bs : List Nat) : Lexer.new bs = stateAt bs 0 := rfl

@[simp] theorem peek_stateAt (bs : List Nat) (p : Nat) :
    (stateAt bs p).peek = bs[p + 1]? :=
  bGet_eq_getElem? bs (p + 1)

theorem peek_some_lt {l : Lexer} {c : Nat} (h : l.peek = some c) :
    l.read_position < l.input.length := by
  unfold Lexer.peek bGet at h
  by_contra hlt
  rw [if_pos (by omega)] at h
  exact Option.noConfusion h

/-! ## Loop step and stop lemmas

Each internal `while` loop is captured by a fueled function plus a wrapper
passing an always-sufficient fuel; the three lemmas per loop say that the
wrapper makes one faithful loop iteration (`..._step`) and that it halts
exactly when the source's loop condition fails (`..._none`, `..._neg`). -/

theorem skip_whitespace_ch_none {l : Lexer} (h : l.ch = none) :
    l.skip_whitespace = l := by
  unfold Lexer.skip_whitespace
  cases hf : l.input.length + 1 - l.position with
  | zero => rfl
  | succ f => simp [skipWsF, h]

theorem skip_whitespace_not_ws {l : Lexer} {c : Nat} (h : l.ch = some c)
    (hw : isAsciiWhitespace c = false) : l.skip_whitespace = l := by
  unfold Lexer.skip_whitespace
  cases hf : l.input.length + 1 - l.position with
  | zero => rfl
  | succ f => simp [skipWsF, h, hw]

theorem ident_loop_none {l : Lexer} (h : l.peek = none) : l.ident_loop = l := by
  unfold Lexer.ident_loop
  cases hf : l.input.length - l.read_position with
  | zero => rfl
  | succ f => simp [identEndF, h]

theorem ident_loop_neg {l : Lexer} {c : Nat} (h : l.peek = some c)
    (hc : isIdentChar c = false) : l.ident_loop = l := by
  unfold Lexer.ident_loop
  cases hf : l.input.length - l.read_position with
  | zero => rfl
  | succ f => simp [identEndF, h, hc]

theorem ident_loop_step {l : Lexer} {c : Nat} (h : l.peek = some c)
    (hc : isIdentChar c = true) : l.ident_loop = l.read_char.ident_loop := by
  have hlt : l.read_position < l.input.length := peek_some_lt h
  unfold Lexer.ident_loop
  have harith : l.input.length - l.read_position
      = (l.read_char.input.length - l.read_char.read_position) + 1 := by
    simp only [Lexer.read_char]
    omega
  rw [harith]
  simp [identEndF, h, hc]

theorem digits_loop_none {l : Lexer} (h : l.peek = none) : l.digits_loop = l := by
  unfold Lexer.digits_loop
  cases hf : l.input.length - l.read_position with
  | zero => rfl
  | succ f => simp [digitsEndF, h]

theorem digits_loop_neg {l : Lexer} {c : Nat} (h : l.peek = some c)
    (hc : isAsciiDigit c = false) : l.digits_loop = l := by
  unfold Lexer.digits_loop
  cases hf : l.input.length - l.read_position with
  | zero => rfl
  | succ f => simp [digitsEndF, h, hc]

theorem digits_loop_step {l : Lexer} {c : Nat} (h : l.peek = some c)
    (hc : isAsciiDigit c = true) : l.digits_loop = l.read_char.digits_loop := by
  have hlt : l.read_position < l.input.length := peek_some_lt h
  unfold Lexer.digits_loop
  have harith : l.input.length - l.read_position
      = (l.read_char.input.length - l.read_char.read_position) + 1 := by
    simp only [Lexer.read_char]
    omega
  rw [harith]
  simp [digitsEndF, h, hc]

theorem comment_loop_none {l : Lexer} (h : l.peek = none) : l.comment_loop = l := by
  unfold Lexer.comment_loop
  cases hf : l.input.length - l.read_position with
  | zero => rfl
  | succ f => simp [commentEndF, h]

theorem comment_loop_nl {l : Lexer} (h : l.peek = some 10) : l.comment_loop = l := by
  unfold Lexer.comment_loop
  cases hf : l.input.length - l.read_position with
  | zero => rfl
  | succ f => simp [commentEndF, h]

theorem comment_loop_step {l : Lexer} {c : Nat} (h : l.peek = some c)
    (hc : c ≠ 10) : l.comment_loop = l.read_char.comment_loop := by
  have hlt : l.read_position < l.input.length := peek_some_lt h
  unfold Lexer.comment_loop
  have harith : l.input.length - l.read_position
      = (l.read_char.input.length - l.read_char.read_position) + 1 := by
    simp only [Lexer.read_char]
    omega
  rw [harith]
  simp [commentEndF, h, hc]

/-! ## Loop runs over a decomposed buffer

If the bytes after the lookahead index decompose as a run satisfying the
loop's condition followed by a remainder whose head fails it, the loop
advances the cursor by exactly the run's length. -/

theorem drop_head_eq {bs t : List Nat} {p : Nat} (h : bs.drop (p + 1) = t) :
    bs[p + 1]? = t.head? := by
  rw [List.head?_eq_getElem?, ← h, List.getElem?_drop]

theorem drop_succ_of_drop_cons {bs t : List Nat} {p c : Nat}
    (h : bs.drop (p + 1) = c :: t) : bs.drop (p + 2) = t := by
  have h1 := congrArg (List.drop 1) h
  rw [List.drop_drop] at h1
  have h2 : p + 1 + 1 = p + 2 := by omega
  rw [h2] at h1
  simpa using h1

theorem ident_loop_run (cs : List Nat) : ∀ (p : Nat) (bs rest : List Nat),
    bs.drop (p + 1) = cs ++ rest →
    (∀ x ∈ cs, isIdentChar x = true) →
    (∀ x, rest.head? = some x → isIdentChar x = false) →
    (stateAt bs p).ident_loop = stateAt bs (p + cs.length) := by
  induction cs with
  | nil =>
    intro p bs rest hdrop _ hrest
    have hpeek : (stateAt bs p).peek = rest.head? := by
      rw [peek_stateAt]
      exact drop_head_eq (by simpa using hdrop)
    cases hr : rest.head? with
    | none => rw [ident_loop_none (hpeek.trans hr)]; simp
    | some x =>
      rw [ident_loop_neg (hpeek.trans hr) (hrest x hr)]; simp
  | cons c cs ih =>
    intro p bs rest hdrop hcs hrest
    have hpeek : (stateAt bs p).peek = some c := by
      rw [peek_stateAt, drop_head_eq hdrop]; rfl
    rw [ident_loop_step hpeek (hcs c (by simp)), read_char_stateAt]
    have hdrop2 : bs.drop (p + 1 + 1) = cs ++ rest :=
      drop_succ_of_drop_cons (by simpa using hdrop)
    rw [ih (p + 1) bs rest hdrop2 (fun x hx => hcs x (by simp [hx])) hrest]
    have : p + 1 + cs.length = p + (c :: cs).length := by simp; omega
    rw [this]

theorem digits_loop_run (ds : List Nat) : ∀ (p : Nat) (bs rest : List Nat),
    bs.drop (p + 1) = ds ++ rest →
    (∀ x ∈ ds, isAsciiDigit x = true) →
    (∀ x, rest.head? = some x → isAsciiDigit x = false) →
    (stateAt bs p).digits_loop = stateAt bs (p + ds.length) := by
  induction ds with
  | nil =>
    intro p bs rest hdrop _ hrest
    have hpeek : (stateAt bs p).peek = rest.head? := by
      rw [peek_stateAt]
      exact drop_head_eq (by simpa using hdrop)
    cases hr : rest.head? with
    | none => rw [digits_loop_none (hpeek.trans hr)]; simp
    | some x =>
      rw [digits_loop_neg (hpeek.trans hr) (hrest x hr)]; simp
  | cons c ds ih =>
    intro p bs rest hdrop hds hrest
    have hpeek : (stateAt bs p).peek = some c := by
      rw [peek_stateAt, drop_head_eq hdrop]; rfl
    rw [digits_loop_step hpeek (hds c (by simp)), read_char_stateAt]
    have hdrop2 : bs.drop (p + 1 + 1) = ds ++ rest :=
      drop_succ_of_drop_cons (by simpa using hdrop)
    rw [ih (p + 1) bs rest hdrop2 (fun x hx => hds x (by simp [hx])) hrest]
    have : p + 1 + ds.length = p + (c :: ds).length := by simp; omega
    rw [this]

theorem comment_loop_run (body : List Nat) : ∀ (p : Nat) (bs rest : List Nat),
    bs.drop (p + 1) = body ++ rest →
    (∀ x ∈ body, x ≠ 10) →
    (∀ x, rest.head? = some x → x = 10) →
    (stateAt bs p).comment_loop = stateAt bs (p + body.length) := by
  induction body with
  | nil =>
    intro p bs rest hdrop _ hrest
    have hpeek : (stateAt bs p).peek = rest.head? := by
      rw [peek_stateAt]
      exact drop_head_eq (by simpa using hdrop)
    cases hr : rest.head? with
    | none => rw [comment_loop_none (hpeek.trans hr)]; simp
    | some x =>
      rw [hrest x hr] at hr
      rw [comment_loop_nl (hpeek.trans hr)]; simp
  | cons c body ih =>
    intro p bs rest hdrop hbody hrest
    have hpeek : (stateAt bs p).peek = some c := by
      rw [peek_stateAt, drop_head_eq hdrop]; rfl
    rw [comment_loop_step hpeek (hbody c (by simp)), read_char_stateAt]
    have hdrop2 : bs.drop (p + 1 + 1) = body ++ rest :=
      drop_succ_of_drop_cons (by simpa using hdrop)
    rw [ih (p + 1) bs rest hdrop2 (fun x hx => hbody x (by simp [hx])) hrest]
    have : p + 1 + body.length = p + (c :: body).length := by simp; omega
    rw [this]

/-- The inclusive slice from the token's start to the cursor after a run of
length `cs.length` is the head byte followed by the run. -/
theorem slice_run {bs cs rest : List Nat} {p c : Nat} (hc : bs[p]? = some c)
    (hdrop : bs.drop (p + 1) = cs ++ rest) :
    sliceIncl bs p (p + cs.length) = c :: cs := by
  have hdp : bs.drop p = c :: (cs ++ rest) := by
    obtain ⟨hlt, he⟩ := List.getElem?_eq_some_iff.mp hc
    rw [List.drop_eq_getElem_cons hlt, he, hdrop]
  unfold sliceIncl
  rw [hdp]
  have harith : p + cs.length + 1 - p = cs.length + 1 := by omega
  rw [harith, List.take_succ_cons, List.take_left]

/-! ## `next_token` on one classified lexeme

Each lemma mirrors one arm of the classification `match`: with the cursor
on the head byte of a lexeme (and, for the looping arms, the buffer after
it decomposed into the maximal run and a remainder), `next_token` returns
the arm's token and the state whose cursor sits just past the lexeme. -/

theorem identRange {c : Nat} (h : isIdentChar c = true) :
    (65 ≤ c ∧ c ≤ 90) ∨ (97 ≤ c ∧ c ≤ 122) ∨ c = 95 := by
  simp [isIdentChar, isAsciiAlphabetic] at h
  omega

theorem digitRange {c : Nat} (h : isAsciiDigit c = true) : 48 ≤ c ∧ c ≤ 57 := by
  simp [isAsciiDigit] at h
  omega

theorem drop_getElem_eq {bs t : List Nat} {p : Nat} (h : bs.drop (p + 1) = t)
    (k : Nat) : bs[p + 1 + k]? = t[k]? := by
  rw [← h, List.getElem?_drop]

theorem drop_shift {bs t : List Nat} {p : Nat} (h : bs.drop (p + 1) = t)
    (j : Nat) : bs.drop (p + 1 + j) = t.drop j := by
  rw [← h, List.drop_drop]

/-- The sixteen direct single-byte arms. -/
theorem nt_simple {bs : List Nat} {p c : Nat} {t : Token} (hc : bs[p]? = some c)
    (hm : (c, t) ∈ ([(43, .OpPlus), (45, .OpMinus), (42, .OpMult), (47, .OpDiv),
      (37, .OpMod), (38, .OpAnd), (124, .OpOr), (59, .SemiColon), (58, .Colon),
      (44, .Comma), (40, .Lparen), (41, .RParen), (123, .LSquirly),
      (125, .RSquirly), (91, .LBracket), (93, .RBracket)] : List (Nat × Token))) :
    (stateAt bs p).next_token = (some t, stateAt bs (p + 1)) := by
  fin_cases hm <;>
  · have hsw : (stateAt bs p).skip_whitespace = stateAt bs p :=
      skip_whitespace_not_ws (by rw [stateAt_ch, hc]) (by decide)
    simp only [Lexer.next_token, hsw, stateAt_ch, hc]
    norm_num [read_char_stateAt]

theorem nt_gt {bs : List Nat} {p d : Nat} (hc : bs[p]? = some 62)
    (hd : bs[p + 1]? = some d) (hne : d ≠ 61) :
    (stateAt bs p).next_token = (some Token.OpGt, stateAt bs (p + 1)) := by
  have hsw : (stateAt bs p).skip_whitespace = stateAt bs p :=
    skip_whitespace_not_ws (by rw [stateAt_ch, hc]) (by decide)
  simp only [Lexer.next_token, hsw, stateAt_ch, hc, peek_stateAt, hd]
  norm_num [hne, read_char_stateAt]

theorem nt_ge {bs : List Nat} {p : Nat} (hc : bs[p]? = some 62)
    (hd : bs[p + 1]? = some 61) :
    (stateAt bs p).next_token = (some Token.OpGe, stateAt bs (p + 2)) := by
  have hsw : (stateAt bs p).skip_whitespace = stateAt bs p :=
    skip_whitespace_not_ws (by rw [stateAt_ch, hc]) (by decide)
  simp only [Lexer.next_token, hsw, stateAt_ch, hc, peek_stateAt, hd]
  norm_num [read_char_stateAt]

theorem nt_assign {bs : List Nat} {p d : Nat} (hc : bs[p]? = some 61)
    (hd : bs[p + 1]? = some d) (hne : d ≠ 61) :
    (stateAt bs p).next_token = (some Token.Assignment, stateAt bs (p + 1)) := by
  have hsw : (stateAt bs p).skip_whitespace = stateAt bs p :=
    skip_whitespace_not_ws (by rw [stateAt_ch, hc]) (by decide)
  simp only [Lexer.next_token, hsw, stateAt_ch, hc, peek_stateAt, hd]
  norm_num [hne, read_char_stateAt]

theorem nt_eq2 {bs : List Nat} {p : Nat} (hc : bs[p]? = some 61)
    (hd : bs[p + 1]? = some 61) :
    (stateAt bs p).next_token = (some Token.OpEq, stateAt bs (p + 2)) := by
  have hsw : (stateAt bs p).skip_whitespace = stateAt bs p :=
    skip_whitespace_not_ws (by rw [stateAt_ch, hc]) (by decide)
  simp only [Lexer.next_token, hsw, stateAt_ch, hc, peek_stateAt, hd]
  norm_num [read_char_stateAt]

theorem nt_not {bs : List Nat} {p d : Nat} (hc : bs[p]? = some 33)
    (hd : bs[p + 1]? = some d) (hne : d ≠ 61) :
    (stateAt bs p).next_token = (some Token.OpNot, stateAt bs (p + 1)) := by
  have hsw : (stateAt bs p).skip_whitespace = stateAt bs p :=
    skip_whitespace_not_ws (by rw [stateAt_ch, hc]) (by decide)
  simp only [Lexer.next_token, hsw, stateAt_ch, hc, peek_stateAt, hd]
  norm_num [hne, read_char_stateAt]

theorem nt_ne {bs : List Nat} {p : Nat} (hc : bs[p]? = some 33)
    (hd : bs[p + 1]? = some 61) :
    (stateAt bs p).next_token = (some Token.OpNe, stateAt bs (p + 2)) := by
  have hsw : (stateAt bs p).skip_whitespace = stateAt bs p :=
    skip_whitespace_not_ws (by rw [stateAt_ch, hc]) (by decide)
  simp only [Lexer.next_token, hsw, stateAt_ch, hc, peek_stateAt, hd]
  norm_num [read_char_stateAt]

theorem nt_lt {bs : List Nat} {p d : Nat} (hc : bs[p]? = some 60)
    (hd : bs[p + 1]? = some d) (hne : d ≠ 61) :
    (stateAt bs p).next_token = (some Token.OpLt, stateAt bs (p + 1)) := by
  have hsw : (stateAt bs p).skip_whitespace = stateAt bs p :=
    skip_whitespace_not_ws (by rw [stateAt_ch, hc]) (by decide)
  simp only [Lexer.next_token, hsw, stateAt_ch, hc, peek_stateAt, hd]
  norm_num [hne, read_char_stateAt]

theorem nt_le {bs : List Nat} {p : Nat} (hc : bs[p]? = some 60)
    (hd : bs[p + 1]? = some 61) :
    (stateAt bs p).next_token = (some Token.OpLe, stateAt bs (p + 2)) := by
  have hsw : (stateAt bs p).skip_whitespace = stateAt bs p :=
    skip_whitespace_not_ws (by rw [stateAt_ch, hc]) (by decide)
  simp only [Lexer.next_token, hsw, stateAt_ch, hc, peek_stateAt, hd]
  norm_num [read_char_stateAt]

/-- A `> = ! <` arm whose lookahead is past the end of input: the Rust
`self.peek().map(...)` is `None`, so no token at all is produced even
though the operator byte is consumed. -/
theorem nt_fallback_eof {bs : List Nat} {p c : Nat} (hc : bs[p]? = some c)
    (hm : c ∈ ([62, 61, 33, 60] : List Nat)) (hd : bs[p + 1]? = none) :
    (stateAt bs p).next_token = (none, stateAt bs (p + 1)) := by
  simp only [List.mem_cons, List.not_mem_nil, or_false] at hm
  rcases hm with rfl | rfl | rfl | rfl <;>
  · have hsw : (stateAt bs p).skip_whitespace = stateAt bs p :=
      skip_whitespace_not_ws (by rw [stateAt_ch, hc]) (by decide)
    simp only [Lexer.next_token, hsw, stateAt_ch, hc, peek_stateAt, hd]
    norm_num [read_char_stateAt]

/-- The lookahead of a state that has consumed head byte plus run `ds` sees
the head of the remainder. -/
theorem peek_run {bs ds rest : List Nat} {p : Nat}
    (hdrop : bs.drop (p + 1) = ds ++ rest) :
    (stateAt bs (p + ds.length)).peek = rest.head? := by
  rw [peek_stateAt, List.head?_eq_getElem?]
  have h1 : p + ds.length + 1 = p + 1 + ds.length := by omega
  rw [h1, drop_getElem_eq hdrop, List.getElem?_append]
  simp

/-- Branch selection: an identifier-head byte reaches the
identifier/keyword arm. -/
theorem nt_class_ident {bs : List Nat} {p c : Nat} (hc : bs[p]? = some c)
    (hid : isIdentChar c = true) :
    (stateAt bs p).next_token
      = (some (lookupIdent ((stateAt bs p).read_identifier).2),
         ((stateAt bs p).read_identifier).1.read_char) := by
  have hcr := identRange hid
  have hws : isAsciiWhitespace c = false := by
    simp [isAsciiWhitespace]; omega
  have hsw : (stateAt bs p).skip_whitespace = stateAt bs p :=
    skip_whitespace_not_ws (by rw [stateAt_ch, hc]) hws
  simp only [Lexer.next_token, hsw, stateAt_ch, hc]
  rw [if_neg (by omega : ¬ c = 43), if_neg (by omega : ¬ c = 45),
    if_neg (by omega : ¬ c = 42), if_neg (by omega : ¬ c = 47),
    if_neg (by omega : ¬ c = 37), if_neg (by omega : ¬ c = 38),
    if_neg (by omega : ¬ c = 124), if_neg (by omega : ¬ c = 62),
    if_neg (by omega : ¬ c = 61), if_neg (by omega : ¬ c = 33),
    if_neg (by omega : ¬ c = 60), if_neg (by omega : ¬ c = 59),
    if_neg (by omega : ¬ c = 58), if_neg (by omega : ¬ c = 44),
    if_neg (by omega : ¬ c = 40), if_neg (by omega : ¬ c = 41),
    if_neg (by omega : ¬ c = 123), if_neg (by omega : ¬ c = 125),
    if_neg (by omega : ¬ c = 91), if_neg (by omega : ¬ c = 93),
    if_neg (by omega : ¬ c = 63), if_pos hid]

/-- Branch selection: a digit head byte reaches the numeric-literal arm. -/
theorem nt_class_digit {bs : List Nat} {p c : Nat} (hc : bs[p]? = some c)
    (hd : isAsciiDigit c = true) :
    (stateAt bs p).next_token
      = (some (.NumLiteral ((stateAt bs p).read_num).2),
         ((stateAt bs p).read_num).1.read_char) := by
  have hcr := digitRange hd
  have hws : isAsciiWhitespace c = false := by
    simp [isAsciiWhitespace]; omega
  have hsw : (stateAt bs p).skip_whitespace = stateAt bs p :=
    skip_whitespace_not_ws (by rw [stateAt_ch, hc]) hws
  have hident : ¬ isIdentChar c = true := by
    simp [isIdentChar, isAsciiAlphabetic]; omega
  simp only [Lexer.next_token, hsw, stateAt_ch, hc]
  rw [if_neg (by omega : ¬ c = 43), if_neg (by omega : ¬ c = 45),
    if_neg (by omega : ¬ c = 42), if_neg (by omega : ¬ c = 47),
    if_neg (by omega : ¬ c = 37), if_neg (by omega : ¬ c = 38),
    if_neg (by omega : ¬ c = 124), if_neg (by omega : ¬ c = 62),
    if_neg (by omega : ¬ c = 61), if_neg (by omega : ¬ c = 33),
    if_neg (by omega : ¬ c = 60), if_neg (by omega : ¬ c = 59),
    if_neg (by omega : ¬ c = 58), if_neg (by omega : ¬ c = 44),
    if_neg (by omega : ¬ c = 40), if_neg (by omega : ¬ c = 41),
    if_neg (by omega : ¬ c = 123), if_neg (by omega : ¬ c = 125),
    if_neg (by omega : ¬ c = 91), if_neg (by omega : ¬ c = 93),
    if_neg (by omega : ¬ c = 63), if_neg hident, if_pos hd]

/-- The comment arm: the captured text starts at the `?` marker itself and
runs through the byte just before the next newline (or to end of input);
the scanner ends one byte past the captured text. -/
theorem nt_comment {bs body rest : List Nat} {p : Nat} (hc : bs[p]? = some 63)
    (hdrop : bs.drop (p + 1) = body ++ rest)
    (hbody : ∀ x ∈ body, x ≠ 10)
    (hrest : ∀ x, rest.head? = some x → x = 10) :
    (stateAt bs p).next_token
      = (some (.Comment (63 :: body)), stateAt bs (p + body.length + 1)) := by
  have hsw : (stateAt bs p).skip_whitespace = stateAt bs p :=
    skip_whitespace_not_ws (by rw [stateAt_ch, hc]) (by decide)
  simp only [Lexer.next_token, hsw, stateAt_ch, hc]
  norm_num
  unfold Lexer.read_comment
  rw [comment_loop_run body p bs rest hdrop hbody hrest]
  simp only [stateAt_position, stateAt_input]
  rw [slice_run hc hdrop, read_char_stateAt]
  exact ⟨rfl, rfl⟩

/-- The identifier/keyword arm: the captured text is the maximal
alphabetic/underscore run from the cursor, classified by the keyword
table. -/
theorem nt_ident {bs cs rest : List Nat} {p c : Nat} (hc : bs[p]? = some c)
    (hid : isIdentChar c = true)
    (hdrop : bs.drop (p + 1) = cs ++ rest)
    (hcs : ∀ x ∈ cs, isIdentChar x = true)
    (hrest : ∀ x, rest.head? = some x → isIdentChar x = false) :
    (stateAt bs p).next_token
      = (some (lookupIdent (c :: cs)), stateAt bs (p + cs.length + 1)) := by
  rw [nt_class_ident hc hid]
  unfold Lexer.read_identifier
  rw [ident_loop_run cs p bs rest hdrop hcs hrest]
  simp only [stateAt_position, stateAt_input]
  rw [slice_run hc hdrop, read_char_stateAt]

/-- The numeric arm, integer shape: a maximal digit run not followed by a
`.` yields a `NumLiteral` of exactly that run. -/
theorem nt_num_int {bs ds rest : List Nat} {p c : Nat} (hc : bs[p]? = some c)
    (hd : isAsciiDigit c = true)
    (hdrop : bs.drop (p + 1) = ds ++ rest)
    (hds : ∀ x ∈ ds, isAsciiDigit x = true)
    (hrest : ∀ x, rest.head? = some x → isAsciiDigit x = false)
    (hrdot : ∀ x, rest.head? = some x → x ≠ 46) :
    (stateAt bs p).next_token
      = (some (.NumLiteral (c :: ds)), stateAt bs (p + ds.length + 1)) := by
  rw [nt_class_digit hc hd]
  unfold Lexer.read_num
  rw [digits_loop_run ds p bs rest hdrop hds hrest]
  simp only [peek_run hdrop]
  cases hr : rest.head? with
  | none =>
    simp only [stateAt_position, stateAt_input, slice_run hc hdrop,
      read_char_stateAt]
  | some x =>
    simp only [if_neg (hrdot x hr), stateAt_position, stateAt_input,
      slice_run hc hdrop, read_char_stateAt]

/-- The numeric arm, trailing-dot shape: a digit run followed by `.` with
no digit after it captures the run together with the dot; no error and no
special handling. -/
theorem nt_num_trail {bs ds rest : List Nat} {p c : Nat} (hc : bs[p]? = some c)
    (hd : isAsciiDigit c = true)
    (hdrop : bs.drop (p + 1) = ds ++ 46 :: rest)
    (hds : ∀ x ∈ ds, isAsciiDigit x = true)
    (hrest : ∀ x, rest.head? = some x → isAsciiDigit x = false) :
    (stateAt bs p).next_token
      = (some (.NumLiteral (c :: (ds ++ [46]))), stateAt bs (p + ds.length + 2)) := by
  rw [nt_class_digit hc hd]
  unfold Lexer.read_num
  rw [digits_loop_run ds p bs (46 :: rest) hdrop hds
      (fun x hx => by cases hx; decide)]
  simp only [peek_run hdrop, List.head?_cons, read_char_stateAt]
  norm_num
  have hdrop2 : bs.drop (p + ds.length + 1 + 1) = [] ++ rest := by
    have h1 : p + ds.length + 1 + 1 = p + 1 + (ds.length + 1) := by omega
    rw [h1, drop_shift hdrop]
    simp [List.drop_append_of_le_length]
  rw [digits_loop_run [] (p + ds.length + 1) bs rest hdrop2 (by simp) hrest]
  simp only [stateAt_position, stateAt_input, List.length_nil, Nat.add_zero]
  have hdrop3 : bs.drop (p + 1) = (ds ++ [46]) ++ rest := by
    rw [hdrop]; simp
  have h2 : p + ds.length + 1 = p + (ds ++ [46]).length := by
    simp only [List.length_append, List.length_cons, List.length_nil]
    omega
  rw [h2, slice_run hc hdrop3, read_char_stateAt]
  have h3 : p + (ds ++ [46]).length + 1 = p + ds.length + 2 := by
    simp only [List.length_append, List.length_cons, List.length_nil]
    omega
  rw [h3]
  exact ⟨rfl, rfl⟩

/-- The numeric arm, decimal shape: digit run, `.`, digit run yields one
`NumLiteral` spanning both runs and the dot. -/
theorem nt_num_frac {bs ds es rest : List Nat} {p c e : Nat} (hc : bs[p]? = some c)
    (hd : isAsciiDigit c = true)
    (hdrop : bs.drop (p + 1) = ds ++ 46 :: e :: (es ++ rest))
    (hds : ∀ x ∈ ds, isAsciiDigit x = true)
    (he : isAsciiDigit e = true)
    (hes : ∀ x ∈ es, isAsciiDigit x = true)
    (hrest : ∀ x, rest.head? = some x → isAsciiDigit x = false) :
    (stateAt bs p).next_token
      = (some (.NumLiteral (c :: (ds ++ 46 :: e :: es))),
         stateAt bs (p + ds.length + es.length + 3)) := by
  rw [nt_class_digit hc hd]
  unfold Lexer.read_num
  rw [digits_loop_run ds p bs (46 :: e :: (es ++ rest)) hdrop hds
      (fun x hx => by cases hx; decide)]
  simp only [peek_run hdrop, List.head?_cons, read_char_stateAt]
  norm_num
  have hdrop2 : bs.drop (p + ds.length + 1 + 1) = (e :: es) ++ rest := by
    have h1 : p + ds.length + 1 + 1 = p + 1 + (ds.length + 1) := by omega
    rw [h1, drop_shift hdrop]
    simp [List.drop_append_of_le_length]
  rw [digits_loop_run (e :: es) (p + ds.length + 1) bs rest hdrop2
      (by
        intro x hx
        rcases List.mem_cons.mp hx with rfl | hx2
        · exact he
        · exact hes x hx2) hrest]
  simp only [stateAt_position, stateAt_input, List.length_cons]
  have hdrop3 : bs.drop (p + 1) = (ds ++ 46 :: e :: es) ++ rest := by
    rw [hdrop]; simp
  have h2 : p + ds.length + 1 + (es.length + 1) = p + (ds ++ 46 :: e :: es).length := by
    simp only [List.length_append, List.length_cons, List.length_nil]
    omega
  rw [h2, slice_run hc hdrop3, read_char_stateAt]
  have h3 : p + (ds ++ 46 :: e :: es).length + 1 = p + ds.length + es.length + 3 := by
    simp only [List.length_append, List.length_cons, List.length_nil]
    omega
  rw [h3]
  exact ⟨rfl, rfl⟩

/-- A byte recognised by no classification rule: no token is produced for
this call, and the cursor nevertheless advances one byte, so the next call
scans from the following position. -/
theorem nt_unrecognized {bs : List Nat} {p c : Nat} (hc : bs[p]? = some c)
    (hnr : recognizedByte c = false) (hws : isAsciiWhitespace c = false) :
    (stateAt bs p).next_token = (none, stateAt bs (p + 1)) := by
  have hsw : (stateAt bs p).skip_whitespace = stateAt bs p :=
    skip_whitespace_not_ws (by rw [stateAt_ch, hc]) hws
  simp only [recognizedByte, isIdentChar, isAsciiAlphabetic, isAsciiDigit,
    Bool.or_eq_false_iff, decide_eq_false_iff_not, Bool.and_eq_false_iff,
    not_le, decide_eq_true_eq] at hnr
  have hident : ¬ isIdentChar c = true := by
    simp [isIdentChar, isAsciiAlphabetic]; omega
  have hdig : ¬ isAsciiDigit c = true := by
    simp [isAsciiDigit]; omega
  simp only [Lexer.next_token, hsw, stateAt_ch, hc]
  rw [if_neg (by omega : ¬ c = 43), if_neg (by omega : ¬ c = 45),
    if_neg (by omega : ¬ c = 42), if_neg (by omega : ¬ c = 47),
    if_neg (by omega : ¬ c = 37), if_neg (by omega : ¬ c = 38),
    if_neg (by omega : ¬ c = 124), if_neg (by omega : ¬ c = 62),
    if_neg (by omega : ¬ c = 61), if_neg (by omega : ¬ c = 33),
    if_neg (by omega : ¬ c = 60), if_neg (by omega : ¬ c = 59),
    if_neg (by omega : ¬ c = 58), if_neg (by omega : ¬ c = 44),
    if_neg (by omega : ¬ c = 40), if_neg (by omega : ¬ c = 41),
    if_neg (by omega : ¬ c = 123), if_neg (by omega : ¬ c = 125),
    if_neg (by omega : ¬ c = 91), if_neg (by omega : ¬ c = 93),
    if_neg (by omega : ¬ c = 63), if_neg hident, if_neg hdig,
    read_char_stateAt]

/-! ## Cursor invariant and loop bounds -/

/-- The scanner-state invariant of spec §3: once initialised, the lookahead
index is the cursor index plus one, and the current character is absent
exactly when the cursor is at or past the end of the buffer. -/
def cursorInv (l : Lexer) : Prop :=
  l.read_position = l.position + 1 ∧ (l.ch = none ↔ l.input.length ≤ l.position)

/-- Every single `read_char`, from any state, establishes the cursor
invariant. -/
theorem read_char_cursorInv (l : Lexer) : cursorInv l.read_char := by
  refine ⟨rfl, ?_⟩
  show bGet l.input l.read_position = none ↔ l.input.length ≤ l.read_position
  rw [bGet_eq_getElem?]
  exact List.getElem?_eq_none_iff

theorem next_token_snd_read_char (l : Lexer) :
    ∃ l1 : Lexer, (l.next_token).2 = l1.read_char :=
  ⟨_, rfl⟩

theorem peek_none_of_le {l : Lexer} (h : l.input.length ≤ l.read_position) :
    l.peek = none := by
  unfold Lexer.peek bGet
  rw [if_pos h]

theorem read_char_read_position (l : Lexer) :
    (l.read_char).read_position = l.read_position + 1 := rfl

theorem identEndF_rp_le (f : Nat) : ∀ l : Lexer,
    (identEndF f l).read_position ≤ max l.read_position l.input.length := by
  induction f with
  | zero => intro l; simp [identEndF]
  | succ f ih =>
    intro l
    show (match l.peek with
      | some c => if isIdentChar c then identEndF f l.read_char else l
      | none => l).read_position ≤ max l.read_position l.input.length
    cases hp : l.peek with
    | none => simp
    | some c =>
      by_cases hc : isIdentChar c = true
      · have hlt := peek_some_lt hp
        have := ih l.read_char
        simp only [Lexer.read_char] at this ⊢
        simp [hc]
        omega
      · simp [hc]

theorem digitsEndF_rp_le (f : Nat) : ∀ l : Lexer,
    (digitsEndF f l).read_position ≤ max l.read_position l.input.length := by
  induction f with
  | zero => intro l; simp [digitsEndF]
  | succ f ih =>
    intro l
    show (match l.peek with
      | some c => if isAsciiDigit c then digitsEndF f l.read_char else l
      | none => l).read_position ≤ max l.read_position l.input.length
    cases hp : l.peek with
    | none => simp
    | some c =>
      by_cases hc : isAsciiDigit c = true
      · have hlt := peek_some_lt hp
        have := ih l.read_char
        simp only [Lexer.read_char] at this ⊢
        simp [hc]
        omega
      · simp [hc]

theorem commentEndF_rp_le (f : Nat) : ∀ l : Lexer,
    (commentEndF f l).read_position ≤ max l.read_position l.input.length := by
  induction f with
  | zero => intro l; simp [commentEndF]
  | succ f ih =>
    intro l
    show (match l.peek with
      | some c => if c ≠ 10 then commentEndF f l.read_char else l
      | none => l).read_position ≤ max l.read_position l.input.length
    cases hp : l.peek with
    | none => simp
    | some c =>
      by_cases hc : c = 10
      · simp [hc]
      · have hlt := peek_some_lt hp
        have := ih l.read_char
        simp only [Lexer.read_char] at this ⊢
        simp [hc]
        omega

theorem skipWsF_rp_le (f : Nat) : ∀ (bs : List Nat) (p : Nat),
    (skipWsF f (stateAt bs p)).read_position ≤ max (p + 1) (bs.length + 1) := by
  induction f with
  | zero => intro bs p; simp [skipWsF]
  | succ f ih =>
    intro bs p
    show (match (stateAt bs p).ch with
      | some c => if isAsciiWhitespace c then skipWsF f (stateAt bs p).read_char else (stateAt bs p)
      | none => (stateAt bs p)).read_position ≤ max (p + 1) (bs.length + 1)
    cases hp : (stateAt bs p).ch with
    | none => simp
    | some c =>
      by_cases hc : isAsciiWhitespace c = true
      · have hlt : p < bs.length := by
          rw [stateAt_ch] at hp
          obtain ⟨hlt2, -⟩ := List.getElem?_eq_some_iff.mp hp
          exact hlt2
        rw [read_char_stateAt] at *
        have := ih bs (p + 1)
        simp [hc]
        omega
      · simp [hc]

/-! ## Coverage: on dense recognised input, token texts tile the buffer -/

set_option maxHeartbeats 1000000 in
theorem text_lookupIdent (s : List Nat) : (lookupIdent s).text = s := by
  unfold lookupIdent
  split_ifs with h1 h2 h3 h4 h5 h6 h7 h8 h9 h10
  · rw [h1]; rfl
  · rw [h2]; rfl
  · rw [h3]; rfl
  · rw [h4]; rfl
  · rw [h5]; rfl
  · rw [h6]; rfl
  · rw [h7]; rfl
  · rw [h8]; rfl
  · rw [h9]; rfl
  · rw [h10]; rfl
  · rfl

theorem take_one_drop {bs : List Nat} {p c : Nat} (hc : bs[p]? = some c) :
    (bs.drop p).take 1 = [c] := by
  obtain ⟨hlt, he⟩ := List.getElem?_eq_some_iff.mp hc
  rw [List.drop_eq_getElem_cons hlt, he]
  rfl

theorem take_two_drop {bs : List Nat} {p c d : Nat} (hc : bs[p]? = some c)
    (hd : bs[p + 1]? = some d) : (bs.drop p).take 2 = [c, d] := by
  obtain ⟨hlt, he⟩ := List.getElem?_eq_some_iff.mp hc
  rw [List.drop_eq_getElem_cons hlt, he]
  show c :: (bs.drop (p + 1)).take 1 = [c, d]
  rw [take_one_drop hd]

theorem take_run_drop {bs cs rest : List Nat} {p c : Nat} (hc : bs[p]? = some c)
    (hdrop : bs.drop (p + 1) = cs ++ rest) :
    (bs.drop p).take (cs.length + 1) = c :: cs := by
  have h := slice_run hc hdrop
  unfold sliceIncl at h
  rwa [show p + cs.length + 1 - p = cs.length + 1 by omega] at h

/-- One `next_token` call on a buffer of recognised, non-whitespace bytes
whose last byte is not one of `> = ! <`: a token is always produced, the
cursor strictly advances but never past the buffer end, and the token's
lexeme text is exactly the consumed byte span. -/
theorem cover_step {bs : List Nat} {p c : Nat}
    (hrec : ∀ x ∈ bs, recognizedByte x = true)
    (hlast : ∀ x, bs.getLast? = some x → x ≠ 62 ∧ x ≠ 61 ∧ x ≠ 33 ∧ x ≠ 60)
    (hc : bs[p]? = some c) :
    ∃ (t : Token) (q : Nat),
      (stateAt bs p).next_token = (some t, stateAt bs q) ∧
      p < q ∧ q ≤ bs.length ∧ Token.text t = (bs.drop p).take (q - p) := by
  have hplt : p < bs.length := (List.getElem?_eq_some_iff.mp hc).1
  have hcb : recognizedByte c = true := hrec c (List.getElem?_mem hc)
  have hdropsub : ∀ x ∈ bs.drop (p + 1), x ∈ bs := fun x hx => List.drop_subset _ _ hx
  -- the four lookahead operators need a byte after them
  have hpeek : (c = 62 ∨ c = 61 ∨ c = 33 ∨ c = 60) → ∃ d, bs[p + 1]? = some d := by
    intro hm
    have hne : p + 1 ≠ bs.length := by
      intro hcon
      have hlastc : bs.getLast? = some c := by
        rw [List.getLast?_eq_getElem?, show bs.length - 1 = p by omega]
        exact hc
      rcases hlast c hlastc with ⟨h62, h61, h33, h60⟩
      rcases hm with rfl | rfl | rfl | rfl <;> simp_all
    have hlt2 : p + 1 < bs.length := by omega
    exact ⟨bs[p + 1], List.getElem?_eq_getElem hlt2⟩
  simp only [recognizedByte, Bool.or_eq_true, decide_eq_true_eq, or_assoc] at hcb
  rcases hcb with rfl | rfl | rfl | rfl | rfl | rfl | rfl | rfl | rfl | rfl |
    rfl | rfl | rfl | rfl | rfl | rfl | rfl | rfl | rfl | rfl | rfl | hid | hdig
  -- single-byte operator and delimiter arms
  · exact ⟨.OpPlus, p + 1, nt_simple hc (by decide), by omega, by omega,
    by rw [show p + 1 - p = 1 by omega, take_one_drop hc]; rfl⟩
  · exact ⟨.OpMinus, p + 1, nt_simple hc (by decide), by omega, by omega,
    by rw [show p + 1 - p = 1 by omega, take_one_drop hc]; rfl⟩
  · exact ⟨.OpMult, p + 1, nt_simple hc (by decide), by omega, by omega,
    by rw [show p + 1 - p = 1 by omega, take_one_drop hc]; rfl⟩
  · exact ⟨.OpDiv, p + 1, nt_simple hc (by decide), by omega, by omega,
    by rw [show p + 1 - p = 1 by omega, take_one_drop hc]; rfl⟩
  · exact ⟨.OpMod, p + 1, nt_simple hc (by decide), by omega, by omega,
    by rw [show p + 1 - p = 1 by omega, take_one_drop hc]; rfl⟩
  · exact ⟨.OpAnd, p + 1, nt_simple hc (by decide), by omega, by omega,
    by rw [show p + 1 - p = 1 by omega, take_one_drop hc]; rfl⟩
  · exact ⟨.OpOr, p + 1, nt_simple hc (by decide), by omega, by omega,
    by rw [show p + 1 - p = 1 by omega, take_one_drop hc]; rfl⟩
  -- `>` with lookahead
  · obtain ⟨d, hd⟩ := hpeek (by omega)
    have hlt2 : p + 1 < bs.length := (List.getElem?_eq_some_iff.mp hd).1
    by_cases h61 : d = 61
    · subst h61
      exact ⟨.OpGe, p + 2, nt_ge hc hd, by omega, by omega,
        by rw [show p + 2 - p = 2 by omega, take_two_drop hc hd]; rfl⟩
    · exact ⟨.OpGt, p + 1, nt_gt hc hd h61, by omega, by omega,
        by rw [show p + 1 - p = 1 by omega, take_one_drop hc]; rfl⟩
  -- `=` with lookahead
  · obtain ⟨d, hd⟩ := hpeek (by omega)
    have hlt2 : p + 1 < bs.length := (List.getElem?_eq_some_iff.mp hd).1
    by_cases h61 : d = 61
    · subst h61
      exact ⟨.OpEq, p + 2, nt_eq2 hc hd, by omega, by omega,
        by rw [show p + 2 - p = 2 by omega, take_two_drop hc hd]; rfl⟩
    · exact ⟨.Assignment, p + 1, nt_assign hc hd h61, by omega, by omega,
        by rw [show p + 1 - p = 1 by omega, take_one_drop hc]; rfl⟩
  -- `!` with lookahead
  · obtain ⟨d, hd⟩ := hpeek (by omega)
    have hlt2 : p + 1 < bs.length := (List.getElem?_eq_some_iff.mp hd).1
    by_cases h61 : d = 61
    · subst h61
      exact ⟨.OpNe, p + 2, nt_ne hc hd, by omega, by omega,
        by rw [show p + 2 - p = 2 by omega, take_two_drop hc hd]; rfl⟩
    · exact ⟨.OpNot, p + 1, nt_not hc hd h61, by omega, by omega,
        by rw [show p + 1 - p = 1 by omega, take_one_drop hc]; rfl⟩
  -- `<` with lookahead
  · obtain ⟨d, hd⟩ := hpeek (by omega)
    have hlt2 : p + 1 < bs.length := (List.getElem?_eq_some_iff.mp hd).1
    by_cases h61 : d = 61
    · subst h61
      exact ⟨.OpLe, p + 2, nt_le hc hd, by omega, by omega,
        by rw [show p + 2 - p = 2 by omega, take_two_drop hc hd]; rfl⟩
    · exact ⟨.OpLt, p + 1, nt_lt hc hd h61, by omega, by omega,
        by rw [show p + 1 - p = 1 by omega, take_one_drop hc]; rfl⟩
  -- delimiters
  · exact ⟨.SemiColon, p + 1, nt_simple hc (by decide), by omega, by omega,
    by rw [show p + 1 - p = 1 by omega, take_one_drop hc]; rfl⟩
  · exact ⟨.Colon, p + 1, nt_simple hc (by decide), by omega, by omega,
    by rw [show p + 1 - p = 1 by omega, take_one_drop hc]; rfl⟩
  · exact ⟨.Comma, p + 1, nt_simple hc (by decide), by omega, by omega,
    by rw [show p + 1 - p = 1 by omega, take_one_drop hc]; rfl⟩
  · exact ⟨.Lparen, p + 1, nt_simple hc (by decide), by omega, by omega,
    by rw [show p + 1 - p = 1 by omega, take_one_drop hc]; rfl⟩
  · exact ⟨.RParen, p + 1, nt_simple hc (by decide), by omega, by omega,
    by rw [show p + 1 - p = 1 by omega, take_one_drop hc]; rfl⟩
  · exact ⟨.LSquirly, p + 1, nt_simple hc (by decide), by omega, by omega,
    by rw [show p + 1 - p = 1 by omega, take_one_drop hc]; rfl⟩
  · exact ⟨.RSquirly, p + 1, nt_simple hc (by decide), by omega, by omega,
    by rw [show p + 1 - p = 1 by omega, take_one_drop hc]; rfl⟩
  · exact ⟨.LBracket, p + 1, nt_simple hc (by decide), by omega, by omega,
    by rw [show p + 1 - p = 1 by omega, take_one_drop hc]; rfl⟩
  · exact ⟨.RBracket, p + 1, nt_simple hc (by decide), by omega, by omega,
    by rw [show p + 1 - p = 1 by omega, take_one_drop hc]; rfl⟩
  -- `?`: the comment runs to end of input (a newline is whitespace, which
  -- a dense recognised buffer cannot contain)
  ·
    have hdrop : bs.drop (p + 1) = bs.drop (p + 1) ++ [] := by simp
    have hbody : ∀ x ∈ bs.drop (p + 1), x ≠ 10 := by
      intro x hx hx10
      subst hx10
      have := hrec 10 (hdropsub 10 hx)
      exact absurd this (by decide)
    have hlen : (bs.drop (p + 1)).length = bs.length - (p + 1) := by
      simp [List.length_drop]
    refine ⟨.Comment (63 :: bs.drop (p + 1)), p + (bs.drop (p + 1)).length + 1,
      nt_comment hc hdrop hbody (by simp), by omega, by omega, ?_⟩
    rw [show p + (bs.drop (p + 1)).length + 1 - p = (bs.drop (p + 1)).length + 1
      by omega]
    rw [take_run_drop hc hdrop]
    rfl
  -- identifier / keyword
  ·
    set cs := (bs.drop (p + 1)).takeWhile isIdentChar with hcs_def
    set rest := (bs.drop (p + 1)).dropWhile isIdentChar with hrest_def
    have hdrop : bs.drop (p + 1) = cs ++ rest :=
      (List.takeWhile_append_dropWhile isIdentChar (bs.drop (p + 1))).symm
    have hcs : ∀ x ∈ cs, isIdentChar x = true := fun x hx =>
      List.mem_takeWhile_imp hx
    have hrest : ∀ x, rest.head? = some x → isIdentChar x = false := by
      intro x hx
      have hh := List.head?_dropWhile_not isIdentChar (bs.drop (p + 1))
      rw [← hrest_def] at hh
      rw [hx] at hh
      exact hh
    have hcslen : cs.length ≤ bs.length - (p + 1) := by
      have hlenapp := congrArg List.length hdrop
      simp only [List.length_append, List.length_drop] at hlenapp
      omega
    refine ⟨lookupIdent (c :: cs), p + cs.length + 1,
      nt_ident hc hid hdrop hcs hrest, by omega, by omega, ?_⟩
    rw [show p + cs.length + 1 - p = cs.length + 1 by omega]
    rw [take_run_drop hc hdrop, text_lookupIdent]
  -- numeric literal (a `.` byte is not recognised, so only the integer
  -- shape can occur here)
  ·
    set ds := (bs.drop (p + 1)).takeWhile isAsciiDigit with hds_def
    set rest := (bs.drop (p + 1)).dropWhile isAsciiDigit with hrest_def
    have hdrop : bs.drop (p + 1) = ds ++ rest :=
      (List.takeWhile_append_dropWhile isAsciiDigit (bs.drop (p + 1))).symm
    have hds : ∀ x ∈ ds, isAsciiDigit x = true := fun x hx =>
      List.mem_takeWhile_imp hx
    have hrest : ∀ x, rest.head? = some x → isAsciiDigit x = false := by
      intro x hx
      have hh := List.head?_dropWhile_not isAsciiDigit (bs.drop (p + 1))
      rw [← hrest_def] at hh
      rw [hx] at hh
      exact hh
    have hrdot : ∀ x, rest.head? = some x → x ≠ 46 := by
      intro x hx hx46
      subst hx46
      have hmem : (46 : Nat) ∈ rest := List.mem_of_mem_head? (by rw [hx]; rfl)
      have hmem2 : (46 : Nat) ∈ bs.drop (p + 1) := by
        rw [hdrop]
        exact List.mem_append_right _ hmem
      have := hrec 46 (hdropsub 46 hmem2)
      exact absurd this (by decide)
    have hdslen : ds.length ≤ bs.length - (p + 1) := by
      have hlenapp := congrArg List.length hdrop
      simp only [List.length_append, List.length_drop] at hlenapp
      omega
    refine ⟨.NumLiteral (c :: ds), p + ds.length + 1,
      nt_num_int hc hdig hdrop hds hrest hrdot, by omega, by omega, ?_⟩
    rw [show p + ds.length + 1 - p = ds.length + 1 by omega]
    rw [take_run_drop hc hdrop]
    rfl

/-- Scanning a dense recognised buffer from any cursor position: the
concatenated lexeme texts of the collected tokens reproduce the unscanned
part of the buffer. -/
theorem cover_run {bs : List Nat}
    (hrec : ∀ x ∈ bs, recognizedByte x = true)
    (hlast : ∀ x, bs.getLast? = some x → x ≠ 62 ∧ x ≠ 61 ∧ x ≠ 33 ∧ x ≠ 60) :
    ∀ (f p : Nat), bs.length ≤ p + f →
      ((Lexer.collect (stateAt bs p) f).map Token.text).flatten = bs.drop p := by
  intro f
  induction f with
  | zero =>
    intro p h
    simp only [Lexer.collect, List.map_nil, List.flatten_nil]
    exact (List.drop_eq_nil_of_le (by omega)).symm
  | succ f ih =>
    intro p h
    by_cases hp : bs.length ≤ p
    · have hch : (stateAt bs p).ch = none := by
        rw [stateAt_ch]
        exact List.getElem?_len_le hp
      have hnt : ((stateAt bs p).next_token).1 = none := by
        simp only [Lexer.next_token, skip_whitespace_ch_none hch, hch]
      rcases hpair : (stateAt bs p).next_token with ⟨tk, l2⟩
      have htk : tk = none := by rw [hpair] at hnt; exact hnt
      subst htk
      simp only [Lexer.collect, hpair, List.map_nil, List.flatten_nil]
      exact (List.drop_eq_nil_of_le hp).symm
    · push_neg at hp
      have hc : bs[p]? = some bs[p] := List.getElem?_eq_getElem hp
      obtain ⟨t, q, hnt, hpq, hqle, htext⟩ := cover_step hrec hlast hc
      simp only [Lexer.collect, hnt, List.map_cons, List.flatten_cons]
      rw [htext, ih q (by omega)]
      have hdq : bs.drop q = (bs.drop p).drop (q - p) := by
        rw [List.drop_drop]
        congr 1
        omega
      rw [hdq, List.take_append_drop]

/-! ## Claim theorems -/

/-- The ten keyword byte strings:
let, fn, void, true, false, if, else, while, return, break. -/
def kwBytes : List (List Nat) :=
  [[108, 101, 116], [102, 110], [118, 111, 105, 100], [116, 114, 117, 101],
   [102, 97, 108, 115, 101], [105, 102], [101, 108, 115, 101],
   [119, 104, 105, 108, 101], [114, 101, 116, 117, 114, 110],
   [98, 114, 101, 97, 107]]

/-- C1, counterexample: the claim demands that the fallback operators
`> = ! <` as the last (sole) character of input emit their one-character
token.  In the code, `self.peek().map(...)` is `None` at end of input, so
the very first `next_token` call on each of the inputs `">"`, `"="`, `"!"`,
`"<"` returns `None` instead of `OpGt` / `Assignment` / `OpNot` / `OpLt`. -/
theorem claim_C1_counterexample :
    ((Lexer.new [62]).next_token).1 = none ∧
    ((Lexer.new [61]).next_token).1 = none ∧
    ((Lexer.new [33]).next_token).1 = none ∧
    ((Lexer.new [60]).next_token).1 = none := by
  decide

/-- C1, amended: for each of the sixteen single-character lexemes
`+ - * / % & | ; : , ( ) { } [ ]`, scanning exactly that character yields
the single matching token and the following call returns `None`; but for
the fallback operators `> = ! <` as the sole character of input, the first
call already returns `None` (no one-character token is emitted, because the
lookahead is past the end of input), and so does the next. -/
theorem claim_C1 :
    (Lexer.new [43]).nextN 2 = [some .OpPlus, none] ∧
    (Lexer.new [45]).nextN 2 = [some .OpMinus, none] ∧
    (Lexer.new [42]).nextN 2 = [some .OpMult, none] ∧
    (Lexer.new [47]).nextN 2 = [some .OpDiv, none] ∧
    (Lexer.new [37]).nextN 2 = [some .OpMod, none] ∧
    (Lexer.new [38]).nextN 2 = [some .OpAnd, none] ∧
    (Lexer.new [124]).nextN 2 = [some .OpOr, none] ∧
    (Lexer.new [59]).nextN 2 = [some .SemiColon, none] ∧
    (Lexer.new [58]).nextN 2 = [some .Colon, none] ∧
    (Lexer.new [44]).nextN 2 = [some .Comma, none] ∧
    (Lexer.new [40]).nextN 2 = [some .Lparen, none] ∧
    (Lexer.new [41]).nextN 2 = [some .RParen, none] ∧
    (Lexer.new [123]).nextN 2 = [some .LSquirly, none] ∧
    (Lexer.new [125]).nextN 2 = [some .RSquirly, none] ∧
    (Lexer.new [91]).nextN 2 = [some .LBracket, none] ∧
    (Lexer.new [93]).nextN 2 = [some .RBracket, none] ∧
    (Lexer.new [62]).nextN 2 = [none, none] ∧
    (Lexer.new [61]).nextN 2 = [none, none] ∧
    (Lexer.new [33]).nextN 2 = [none, none] ∧
    (Lexer.new [60]).nextN 2 = [none, none] := by
  decide

/-- C2: greedy two-character disambiguation.  An input starting with one of
`>= == != <=` yields that single long-form token with the cursor moved past
both characters (never two short-form tokens); an input starting with
`> = ! <` followed by any byte other than `=` yields the short-form token
with the cursor on that following byte, which is left to be tokenized
separately by later calls; and the example `">>===!=<<="` yields exactly
`[OpGt, OpGe, OpEq, OpNe, OpLt, OpLe]` and then `None`. -/
theorem claim_C2 :
    (∀ rest : List Nat,
      (Lexer.new (62 :: 61 :: rest)).next_token
        = (some .OpGe, stateAt (62 :: 61 :: rest) 2) ∧
      (Lexer.new (61 :: 61 :: rest)).next_token
        = (some .OpEq, stateAt (61 :: 61 :: rest) 2) ∧
      (Lexer.new (33 :: 61 :: rest)).next_token
        = (some .OpNe, stateAt (33 :: 61 :: rest) 2) ∧
      (Lexer.new (60 :: 61 :: rest)).next_token
        = (some .OpLe, stateAt (60 :: 61 :: rest) 2)) ∧
    (∀ (rest : List Nat) (d : Nat), d ≠ 61 →
      (Lexer.new (62 :: d :: rest)).next_token
        = (some .OpGt, stateAt (62 :: d :: rest) 1) ∧
      (Lexer.new (61 :: d :: rest)).next_token
        = (some .Assignment, stateAt (61 :: d :: rest) 1) ∧
      (Lexer.new (33 :: d :: rest)).next_token
        = (some .OpNot, stateAt (33 :: d :: rest) 1) ∧
      (Lexer.new (60 :: d :: rest)).next_token
        = (some .OpLt, stateAt (60 :: d :: rest) 1)) ∧
    (Lexer.new [62, 62, 61, 61, 61, 33, 61, 60, 60, 61]).nextN 7
      = [some .OpGt, some .OpGe, some .OpEq, some .OpNe, some .OpLt,
         some .OpLe, none] := by
  refine ⟨fun rest => ⟨?_, ?_, ?_, ?_⟩, fun rest d hd => ⟨?_, ?_, ?_, ?_⟩, by decide⟩
  · exact @nt_ge (62 :: 61 :: rest) 0 rfl (by simp)
  · exact @nt_eq2 (61 :: 61 :: rest) 0 rfl (by simp)
  · exact @nt_ne (33 :: 61 :: rest) 0 rfl (by simp)
  · exact @nt_le (60 :: 61 :: rest) 0 rfl (by simp)
  · exact @nt_gt (62 :: d :: rest) 0 d rfl (by simp) hd
  · exact @nt_assign (61 :: d :: rest) 0 d rfl (by simp) hd
  · exact @nt_not (33 :: d :: rest) 0 d rfl (by simp) hd
  · exact @nt_lt (60 :: d :: rest) 0 d rfl (by simp) hd

/-- C2, witness: the theorem applied at `">="` and at `">*"`. -/
theorem claim_C2_witness :
    (Lexer.new [62, 61]).next_token = (some .OpGe, stateAt [62, 61] 2) ∧
    (Lexer.new [62, 42]).next_token = (some .OpGt, stateAt [62, 42] 1) :=
  ⟨(claim_C2.1 []).1, (claim_C2.2.1 [] 42 (by decide)).1⟩

/-- C3, counterexample: the round-trip claim fails on the input `"let a"`
(keyword, whitespace, identifier — all recognized lexeme classes).  The
scan yields `[KwLet, Identifier "a"]`; concatenating the lexeme texts gives
`"leta"`, which re-scans to the single token `[Identifier "leta"]`, not an
equivalent sequence. -/
theorem claim_C3_counterexample :
    (Lexer.new [108, 101, 116, 32, 97]).collect 6
      = [Token.KwLet, Token.Identifier [97]] ∧
    ((((Lexer.new [108, 101, 116, 32, 97]).collect 6).map Token.text).flatten
      = [108, 101, 116, 97]) ∧
    (Lexer.new [108, 101, 116, 97]).collect 5
      = [Token.Identifier [108, 101, 116, 97]] ∧
    [Token.Identifier [108, 101, 116, 97]]
      ≠ [Token.KwLet, Token.Identifier [97]] := by
  decide

/-- C3, amended: the round-trip holds for inputs in which the lexemes abut
with nothing skipped between them: every byte is in a recognized class
(operator, delimiter, comment marker, identifier character, digit — hence
no whitespace) and the last byte is not one of the lookahead operators
`> = ! <` (which at end of input produce no token).  For such inputs the
concatenated lexeme texts of the collected tokens are the input itself, so
re-scanning the concatenation reproduces exactly the same token
sequence. -/
theorem claim_C3 (bs : List Nat)
    (hrec : ∀ x ∈ bs, recognizedByte x = true)
    (hlast : ∀ x, bs.getLast? = some x → x ≠ 62 ∧ x ≠ 61 ∧ x ≠ 33 ∧ x ≠ 60) :
    (((Lexer.new bs).collect (bs.length + 1)).map Token.text).flatten = bs ∧
    (Lexer.new ((((Lexer.new bs).collect (bs.length + 1)).map Token.text).flatten)).collect
        (bs.length + 1)
      = (Lexer.new bs).collect (bs.length + 1) := by
  have h1 : (((Lexer.new bs).collect (bs.length + 1)).map Token.text).flatten = bs := by
    rw [new_eq_stateAt]
    have h0 := cover_run hrec hlast (bs.length + 1) 0 (by omega)
    simpa using h0
  refine ⟨h1, ?_⟩
  rw [h1]

/-- C3, witness: the amended theorem applied to `"fn==12;?ok"`. -/
theorem claim_C3_witness :
    ((((Lexer.new [102, 110, 61, 61, 49, 50, 59, 63, 111, 107]).collect 11).map
      Token.text).flatten = [102, 110, 61, 61, 49, 50, 59, 63, 111, 107]) ∧
    (Lexer.new ((((Lexer.new [102, 110, 61, 61, 49, 50, 59, 63, 111, 107]).collect
        11).map Token.text).flatten)).collect 11
      = (Lexer.new [102, 110, 61, 61, 49, 50, 59, 63, 111, 107]).collect 11 :=
  claim_C3 [102, 110, 61, 61, 49, 50, 59, 63, 111, 107]
    (by decide)
    (by
      intro x hx
      have hx2 : x = 107 := (Option.some.inj hx).symm
      subst hx2
      decide)

/-- C4: with the cursor on `?`, one `Comment` token is returned whose text
is the marker itself followed by every byte up to (but not including) the
next newline, or up to end of input if no newline follows; the newline is
never part of the text, and the returned state's cursor sits on the
newline, so the bytes after it are produced by subsequent calls. -/
theorem claim_C4 (bs body rest : List Nat) (p : Nat)
    (hq : bs[p]? = some 63)
    (hdrop : bs.drop (p + 1) = body ++ rest)
    (hbody : ∀ x ∈ body, x ≠ 10)
    (hrest : ∀ x, rest.head? = some x → x = 10) :
    (stateAt bs p).next_token
      = (some (Token.Comment (63 :: body)), stateAt bs (p + body.length + 1)) ∧
    (10 : Nat) ∉ 63 :: body := by
  refine ⟨nt_comment hq hdrop hbody hrest, ?_⟩
  intro hmem
  rcases List.mem_cons.mp hmem with h | h
  · exact absurd h (by decide)
  · exact hbody 10 h rfl

/-- C4, witness: the theorem applied to `"?ab\ncd"` at cursor 0. -/
theorem claim_C4_witness :
    (stateAt [63, 97, 98, 10, 99, 100] 0).next_token
      = (some (Token.Comment [63, 97, 98]), stateAt [63, 97, 98, 10, 99, 100] 3) ∧
    (10 : Nat) ∉ [63, 97, 98] :=
  claim_C4 [63, 97, 98, 10, 99, 100] [97, 98] [10, 99, 100] 0 rfl rfl
    (by decide)
    (by
      intro x hx
      exact (Option.some.inj hx).symm)

/-- C5: with the cursor on a digit whose maximal digit run is immediately
followed by `.` with no digit after the dot, `next_token` returns one
`NumLiteral` whose text is the digit run together with the trailing dot
(the dot is captured as part of the literal text; no error, no special
handling). -/
theorem claim_C5 (bs ds rest : List Nat) (p c : Nat)
    (hc : bs[p]? = some c) (hd : isAsciiDigit c = true)
    (hdrop : bs.drop (p + 1) = ds ++ 46 :: rest)
    (hds : ∀ x ∈ ds, isAsciiDigit x = true)
    (hrest : ∀ x, rest.head? = some x → isAsciiDigit x = false) :
    (stateAt bs p).next_token
      = (some (Token.NumLiteral (c :: (ds ++ [46]))), stateAt bs (p + ds.length + 2)) :=
  nt_num_trail hc hd hdrop hds hrest

/-- C5, witness: the theorem applied to `"12."`. -/
theorem claim_C5_witness :
    (stateAt [49, 50, 46] 0).next_token
      = (some (Token.NumLiteral [49, 50, 46]), stateAt [49, 50, 46] 3) :=
  claim_C5 [49, 50, 46] [50] [] 0 49 rfl (by decide) rfl (by decide)
    (by intro x hx; simp at hx)

/-- C6: with the cursor on an alphabetic byte or underscore, `next_token`
captures the maximal run of alphabetic/underscore bytes (digits excluded by
`isIdentChar`), classifies it through the keyword table, and advances past
the run: each of the ten keyword strings maps to its keyword token, and any
other captured run is returned verbatim as an `Identifier`. -/
theorem claim_C6 (bs cs rest : List Nat) (p c : Nat)
    (hc : bs[p]? = some c) (hid : isIdentChar c = true)
    (hdrop : bs.drop (p + 1) = cs ++ rest)
    (hcs : ∀ x ∈ cs, isIdentChar x = true)
    (hrest : ∀ x, rest.head? = some x → isIdentChar x = false) :
    (stateAt bs p).next_token
      = (some (lookupIdent (c :: cs)), stateAt bs (p + cs.length + 1)) ∧
    ((c :: cs) ∉ kwBytes → lookupIdent (c :: cs) = Token.Identifier (c :: cs)) ∧
    (lookupIdent [108, 101, 116] = Token.KwLet ∧
     lookupIdent [102, 110] = Token.KwFn ∧
     lookupIdent [118, 111, 105, 100] = Token.KwVoid ∧
     lookupIdent [116, 114, 117, 101] = Token.KwTrue ∧
     lookupIdent [102, 97, 108, 115, 101] = Token.KwFalse ∧
     lookupIdent [105, 102] = Token.KwIf ∧
     lookupIdent [101, 108, 115, 101] = Token.KwElse ∧
     lookupIdent [119, 104, 105, 108, 101] = Token.KwWhile ∧
     lookupIdent [114, 101, 116, 117, 114, 110] = Token.KwReturn ∧
     lookupIdent [98, 114, 101, 97, 107] = Token.KwBreak) := by
  refine ⟨nt_ident hc hid hdrop hcs hrest, ?_, by decide⟩
  intro hnk
  simp only [kwBytes, List.mem_cons, List.not_mem_nil, or_false, not_or] at hnk
  obtain ⟨n1, n2, n3, n4, n5, n6, n7, n8, n9, n10⟩ := hnk
  unfold lookupIdent
  rw [if_neg n1, if_neg n2, if_neg n3, if_neg n4, if_neg n5, if_neg n6,
    if_neg n7, if_neg n8, if_neg n9, if_neg n10]

/-- C6, witness: the theorem applied to `"fox"` at cursor 0. -/
theorem claim_C6_witness :
    (stateAt [102, 111, 120] 0).next_token
      = (some (lookupIdent [102, 111, 120]), stateAt [102, 111, 120] 3) ∧
    lookupIdent [102, 111, 120] = Token.Identifier [102, 111, 120] :=
  have h := claim_C6 [102, 111, 120] [111, 120] [] 0 102 rfl (by decide) rfl
    (by decide) (by intro x hx; simp at hx)
  ⟨h.1, h.2.1 (by decide)⟩

/-- C7: with the cursor on a digit, `next_token` returns exactly one
`NumLiteral`: for a maximal digit run not followed by `.`, its text is the
full run; for a digit run, `.`, digit run, its text is the full span of
both runs including the dot. -/
theorem claim_C7 :
    (∀ (bs ds rest : List Nat) (p c : Nat),
      bs[p]? = some c → isAsciiDigit c = true →
      bs.drop (p + 1) = ds ++ rest →
      (∀ x ∈ ds, isAsciiDigit x = true) →
      (∀ x, rest.head? = some x → isAsciiDigit x = false) →
      (∀ x, rest.head? = some x → x ≠ 46) →
      (stateAt bs p).next_token
        = (some (Token.NumLiteral (c :: ds)), stateAt bs (p + ds.length + 1))) ∧
    (∀ (bs ds es rest : List Nat) (p c e : Nat),
      bs[p]? = some c → isAsciiDigit c = true →
      bs.drop (p + 1) = ds ++ 46 :: e :: (es ++ rest) →
      (∀ x ∈ ds, isAsciiDigit x = true) →
      isAsciiDigit e = true →
      (∀ x ∈ es, isAsciiDigit x = true) →
      (∀ x, rest.head? = some x → isAsciiDigit x = false) →
      (stateAt bs p).next_token
        = (some (Token.NumLiteral (c :: (ds ++ 46 :: e :: es))),
           stateAt bs (p + ds.length + es.length + 3))) :=
  ⟨fun _ _ _ _ _ hc hd h1 h2 h3 h4 => nt_num_int hc hd h1 h2 h3 h4,
   fun _ _ _ _ _ _ _ hc hd h1 h2 h3 h4 h5 => nt_num_frac hc hd h1 h2 h3 h4 h5⟩

/-- C7, witness: the theorem applied to `"42"` and to `"1.5"`. -/
theorem claim_C7_witness :
    (stateAt [52, 50] 0).next_token
      = (some (Token.NumLiteral [52, 50]), stateAt [52, 50] 2) ∧
    (stateAt [49, 46, 53] 0).next_token
      = (some (Token.NumLiteral [49, 46, 53]), stateAt [49, 46, 53] 3) :=
  ⟨claim_C7.1 [52, 50] [50] [] 0 52 rfl (by decide) rfl (by decide)
      (by intro x hx; simp at hx) (by intro x hx; simp at hx),
   claim_C7.2 [49, 46, 53] [] [] [] 0 49 53 rfl (by decide) rfl (by decide)
      (by decide) (by decide) (by intro x hx; simp at hx)⟩

/-- C8: `next_token` is total — in the embedding it is a function into
`Option Token × Lexer`, so every call returns `some` token or `none` — and
on a current byte matching no classification rule it returns `none` for
that call while the cursor still advances past the byte, so a subsequent
call continues scanning from the next position. -/
theorem claim_C8 (bs : List Nat) (p c : Nat) (hc : bs[p]? = some c)
    (hnr : recognizedByte c = false) (hws : isAsciiWhitespace c = false) :
    (stateAt bs p).next_token = (none, stateAt bs (p + 1)) :=
  nt_unrecognized hc hnr hws

/-- C8, witness: the theorem applied to `"@a"` (`@` = byte 64 is in no
lexeme class). -/
theorem claim_C8_witness :
    (stateAt [64, 97] 0).next_token = (none, stateAt [64, 97] 1) :=
  claim_C8 [64, 97] 0 64 rfl (by decide) (by decide)

/-- C9: the scanner-state invariant — lookahead index = cursor index + 1,
and the current character is `None` exactly when the cursor is at or past
the end of the buffer — is established by `new`, by every internal advance
(`read_char`), and holds after every `next_token` call on any state. -/
theorem claim_C9 :
    (∀ bs : List Nat, cursorInv (Lexer.new bs)) ∧
    (∀ l : Lexer, cursorInv l.read_char) ∧
    (∀ l : Lexer, cursorInv ((l.next_token).2)) := by
  refine ⟨fun bs => read_char_cursorInv _, fun l => read_char_cursorInv _,
    fun l => ?_⟩
  obtain ⟨l1, h⟩ := next_token_snd_read_char l
  rw [h]
  exact read_char_cursorInv l1

/-- C10: termination mechanism of the four internal loops.  In the
embedding every loop is total by construction; this records the claim's
mechanism: each advance increments the lookahead index by exactly one, each
loop is the identity once the lookahead index has reached the input length
(the loop condition can no longer hold), and no loop ever moves the
lookahead index past `max` of its start and the input length (plus one for
the whitespace loop, whose final advance primes the character after the
run), so a call makes at most input-length many iterations. -/
theorem claim_C10 :
    (∀ l : Lexer, (l.read_char).read_position = l.read_position + 1) ∧
    (∀ l : Lexer, l.input.length ≤ l.read_position → l.ident_loop = l) ∧
    (∀ l : Lexer, l.input.length ≤ l.read_position → l.digits_loop = l) ∧
    (∀ l : Lexer, l.input.length ≤ l.read_position → l.comment_loop = l) ∧
    (∀ (bs : List Nat) (p : Nat), bs.length ≤ p →
      (stateAt bs p).skip_whitespace = stateAt bs p) ∧
    (∀ l : Lexer, (l.ident_loop).read_position ≤ max l.read_position l.input.length) ∧
    (∀ l : Lexer, (l.digits_loop).read_position ≤ max l.read_position l.input.length) ∧
    (∀ l : Lexer, (l.comment_loop).read_position ≤ max l.read_position l.input.length) ∧
    (∀ (bs : List Nat) (p : Nat),
      ((stateAt bs p).skip_whitespace).read_position ≤ max (p + 1) (bs.length + 1)) :=
  ⟨fun _ => rfl,
   fun _ h => ident_loop_none (peek_none_of_le h),
   fun _ h => digits_loop_none (peek_none_of_le h),
   fun _ h => comment_loop_none (peek_none_of_le h),
   fun bs p h => skip_whitespace_ch_none
     (by rw [stateAt_ch]; exact List.getElem?_len_le h),
   fun l => identEndF_rp_le _ l,
   fun l => digitsEndF_rp_le _ l,
   fun l => commentEndF_rp_le _ l,
   fun bs p => skipWsF_rp_le _ bs p⟩

/-- C10, witness: the stop conjuncts applied at a state whose lookahead is
past the one-byte buffer `"+"`. -/
theorem claim_C10_witness :
    (stateAt [43] 5).ident_loop = stateAt [43] 5 ∧
    (stateAt [43] 5).digits_loop = stateAt [43] 5 ∧
    (stateAt [43] 5).comment_loop = stateAt [43] 5 ∧
    (stateAt [43] 5).skip_whitespace = stateAt [43] 5 :=
  ⟨claim_C10.2.1 _ (by decide), claim_C10.2.2.1 _ (by decide),
   claim_C10.2.2.2.1 _ (by decide), claim_C10.2.2.2.2.1 [43] 5 (by decide)⟩

end Compyl
